import Mathlib

set_option autoImplicit false
set_option maxHeartbeats 1000000

/-!
Shallow embedding of `cmd/server/runner.go` from the
`openshift-healthchecker` repository.

Modelling conventions:
- Go strings are lists of characters (`Str`); Go maps built by
  `labels[k] = v` assignments are association lists with
  insert-or-replace semantics (`GoMap`).
- `float64` values are exact rationals plus infinity and NaN markers
  (`GoFloat`); rounding of `strconv.ParseFloat` to `float64` is not
  modelled, and the hex-float and underscore literal forms it accepts
  are omitted — the claims only exercise plain decimal forms.
- Fallible Go code (a run-time panic such as an out-of-range index or a
  nil type assertion, or a `prometheus` `With`/`MustRegister` panic)
  is modelled by `Option`, with `none` standing for the panic.
- The Prometheus sink is modelled by a `GaugeVec` value holding the
  registered label names and the live series, plus a registry of
  registered collector names; `log.Warn`-level output is modelled as a
  list of warning messages.
-/

abbrev Str := List Char

abbrev GoMap := List (Str × Str)

/-- Go `strings.Contains` for a one-character substring. -/
def containsChar (c : Char) : Str → Bool
  | [] => false
  | x :: xs => x = c || containsChar c xs

/-- Go `strings.Split` with a one-character separator:
`Split("", sep) = [""]`, and separators delimit (possibly empty) groups. -/
def splitOnChar (c : Char) : Str → List Str
  | [] => [[]]
  | x :: xs =>
    match splitOnChar c xs with
    | [] => [[]]
    | g :: gs => if x = c then [] :: g :: gs else (x :: g) :: gs

/-- Go `strings.SplitN(s, sep, 2)` with a one-character separator: split on
the first occurrence only. -/
def splitN2 (c : Char) : Str → List Str
  | [] => [[]]
  | x :: xs =>
    if x = c then [[], xs]
    else
      match splitN2 c xs with
      | [] => [[]]
      | g :: gs => (x :: g) :: gs

/-- Numeric value of a string of decimal digits. -/
def digitsVal (l : Str) : ℕ :=
  l.foldl (fun a c => a * 10 + (c.toNat - Char.toNat (Char.ofNat 48))) 0

/-- Case-insensitive string equality, as used by `strconv` for the special
float spellings. -/
def lowerEq (a b : Str) : Bool :=
  a.map Char.toLower == b.map Char.toLower

/-- Result of Go `strconv.ParseFloat`: a finite value, a signed infinity,
or NaN. A finite value `finite n e` denotes the exact number `n * 10 ^ e`;
the integer pair is used instead of `ℚ` so that concrete runs reduce inside
the kernel. -/
inductive GoFloat where
  | finite (num : ℤ) (tenExp : ℤ)
  | inf (neg : Bool)
  | nan
deriving DecidableEq

/-- Decimal part of `strconv.ParseFloat` (after an optional sign):
digits with an optional fractional part and an optional exponent; at least
one mantissa digit is required and the whole string must be consumed.
Returns the value as mantissa and power-of-ten exponent. -/
def parseDecimal (s : Str) : Option (ℤ × ℤ) :=
  let ip := s.takeWhile Char.isDigit
  let r1 := s.dropWhile Char.isDigit
  let fp := match r1 with
    | '.' :: r => r.takeWhile Char.isDigit
    | _ => []
  let r2 := match r1 with
    | '.' :: r => r.dropWhile Char.isDigit
    | _ => r1
  if ip = [] ∧ fp = [] then none
  else
    let mantNum : ℤ := (digitsVal (ip ++ fp) : ℤ)
    let mantExp : ℤ := -(fp.length : ℤ)
    match r2 with
    | [] => some (mantNum, mantExp)
    | e :: r3 =>
      if e = 'e' ∨ e = 'E' then
        let signAndRest : Bool × Str := match r3 with
          | '+' :: r => (false, r)
          | '-' :: r => (true, r)
          | r => (false, r)
        let ed := signAndRest.2.takeWhile Char.isDigit
        let r5 := signAndRest.2.dropWhile Char.isDigit
        if ed = [] ∨ r5 ≠ [] then none
        else
          some (mantNum, mantExp +
            (if signAndRest.1 then -(digitsVal ed : ℤ) else (digitsVal ed : ℤ)))
      else none

/-- Go `strconv.ParseFloat(s, 64)` (decimal and special forms; see the file
header for the modelling restrictions). Returns `none` on a syntax error. -/
def parseFloat (s : Str) : Option GoFloat :=
  if lowerEq s ['n', 'a', 'n'] then some GoFloat.nan
  else
    let signAndRest : Bool × Str := match s with
      | '+' :: r => (false, r)
      | '-' :: r => (true, r)
      | r => (false, r)
    if lowerEq signAndRest.2 ['i', 'n', 'f'] ||
        lowerEq signAndRest.2 ['i', 'n', 'f', 'i', 'n', 'i', 't', 'y'] then
      some (GoFloat.inf signAndRest.1)
    else
      match parseDecimal signAndRest.2 with
      | some q => some (GoFloat.finite (if signAndRest.1 then -q.1 else q.1) q.2)
      | none => none

/-- Go `metricValue, _ = strconv.ParseFloat(value, 64)`: the zero value is
kept when parsing fails. -/
def parseFloatOr0 (s : Str) : GoFloat :=
  (parseFloat s).getD (GoFloat.finite 0 0)

/-- Lookup in a Go map modelled as an association list. -/
def mapLookup (m : GoMap) (k : Str) : Option Str :=
  match m with
  | [] => none
  | kv :: rest => if kv.1 = k then some kv.2 else mapLookup rest k

/-- Go map assignment `m[k] = v`: replace the binding if the key is present,
otherwise add it. -/
def mapInsert (m : GoMap) (k v : Str) : GoMap :=
  match m with
  | [] => [(k, v)]
  | kv :: rest => if kv.1 = k then (kv.1, v) :: rest else kv :: mapInsert rest k v

/-- Go `reflect.DeepEqual` on two (non-nil) maps: equal keys with equal
values, independent of order. -/
def mapsEqual (m1 m2 : GoMap) : Bool :=
  m1.all (fun kv => mapLookup m2 kv.1 = some kv.2) &&
    m2.all (fun kv => mapLookup m1 kv.1 = some kv.2)

/-- Go `convertMapKeysToSlice`: the keys of a map as a slice. Go map
iteration order is unspecified; the model fixes insertion order — the
claims depend only on the set of names. -/
def convertMapKeysToSlice (m : GoMap) : List Str :=
  m.map Prod.fst

/-- Label loop of `convertResult`: for each comma-separated item,
`splitLabel := strings.SplitN(label, "=", 2)` followed by
`labels[splitLabel[0]] = splitLabel[1]`. An item without `=` makes
`splitLabel[1]` an out-of-range index — a Go panic, modelled as `none`. -/
def parseLabelsLoop (m : GoMap) : List Str → Option GoMap
  | [] => some m
  | item :: rest =>
    match splitN2 '=' item with
    | [k, v] => parseLabelsLoop (mapInsert m k v) rest
    | _ => none

/-- Go `convertResult`: split the line at `|` into value and label part
(only the first two groups are used), parse the labels, and parse the value
with failure defaulting to 0. -/
def convertResult (result : Str) : Option (GoFloat × GoMap) :=
  if containsChar '|' result then
    match splitOnChar '|' result with
    | value :: labelPart :: _ =>
      match parseLabelsLoop [] (splitOnChar ',' labelPart) with
      | some labels => some (parseFloatOr0 value, labels)
      | none => none
    | _ => none
  else some (parseFloatOr0 result, [])

def gaugeType : Str := "Gauge".data

def counterType : Str := "Counter".data

def histogramType : Str := "Histogram".data

def summaryType : Str := "Summary".data

/-- Warning text shared by the Counter, Histogram and Summary cases of the
source (the source logs the same copy-pasted message for all three). -/
def notImplementedMsg : Str := "Metric type Counter not implemented yet!".data

def unknownRegisterMsg : Str := "Not able to register unknown metric type ".data

def unknownUnregisterMsg : Str := "Not able to unregister unknown metric type ".data

def deleteFailedMsg : Str := "Failed to delete stale metric vector".data

def checkFailedMsg : Str := "Check failed with error: ".data

def scriptFailedPre : Str := "Script failed with error: ".data

/-- Membership of a string in a list of strings. -/
def elemStr (x : Str) : List Str → Bool
  | [] => false
  | y :: ys => y = x || elemStr x ys

/-- Number of occurrences of a string in a list of strings. -/
def countStr (x : Str) : List Str → ℕ
  | [] => 0
  | y :: ys => (if y = x then 1 else 0) + countStr x ys

/-- Removal of the first occurrence of a string, as `prometheus.Unregister`
removes the one registered collector it is given. -/
def eraseStr (x : Str) : List Str → List Str
  | [] => []
  | y :: ys => if y = x then ys else y :: eraseStr x ys

/-- Model of a `prometheus.GaugeVec`: the metric name and help string, the
label names fixed at creation, and the live series, one per label-value
combination. -/
structure GaugeVec where
  name : Str
  help : Str
  labelNames : List Str
  series : List (GoMap × GoFloat)
deriving DecidableEq

/-- Check performed by `prometheus` `With(labels)`: the label map must
provide exactly the variable label names of the vector. -/
def keysMatch (labels : GoMap) (names : List Str) : Bool :=
  (labels.length == names.length) && names.all (fun n => (mapLookup labels n).isSome)

/-- Model of `GaugeVec.With(labels).Set(value)`: update the series for this
label-value combination, creating it on first use; a label map that does not
match the vector's label names is a `prometheus` panic (`none`). -/
def gvSet (gv : GaugeVec) (labels : GoMap) (value : GoFloat) : Option GaugeVec :=
  if keysMatch labels gv.labelNames then
    some { gv with series :=
      if gv.series.any (fun e => mapsEqual e.1 labels) then
        gv.series.map (fun e => if mapsEqual e.1 labels then (e.1, value) else e)
      else gv.series ++ [(labels, value)] }
  else none

/-- Model of `GaugeVec.Delete(labels)`: remove the series whose label-value
combination equals `labels`; the boolean reports whether one was found. -/
def gvDelete (gv : GaugeVec) (labels : GoMap) : GaugeVec × Bool :=
  if gv.series.any (fun e => mapsEqual e.1 labels) then
    ({ gv with series := gv.series.filter (fun e => !(mapsEqual e.1 labels)) }, true)
  else (gv, false)

/-- State of one `Check` together with the shared pieces of the sink it
touches: the fields of the Go `Check` struct used by the runner, the
collector-name registry (`prometheus.MustRegister`/`Unregister`), and the
stream of warn-level log messages. -/
structure RunState where
  Name : Str
  Help : Str
  File : Str
  MetricType : Str
  Interval : ℤ
  nextrun : ℤ
  resultLast : List GoMap
  resultCurrent : List GoMap
  metric : Option GaugeVec
  registry : List Str
  warnings : List Str
deriving DecidableEq

/-- Go `registerMetricsForCheck`: append the labels to `resultCurrent`,
then switch on the metric type: Gauge creates the vector on first use
(registering it, a duplicate registration being a `MustRegister` panic) and
sets the value; Counter, Histogram and Summary only warn; an unknown type
warns and clears the handle. -/
def registerMetricsForCheck (s : RunState) (value : GoFloat) (labels : GoMap) :
    Option RunState :=
  let s1 := { s with resultCurrent := s.resultCurrent ++ [labels] }
  if s1.MetricType = gaugeType then
    match s1.metric with
    | none =>
      let gv : GaugeVec :=
        { name := s1.Name, help := s1.Help,
          labelNames := convertMapKeysToSlice labels, series := [] }
      if elemStr s1.Name s1.registry then none
      else
        match gvSet gv labels value with
        | some gv2 =>
          some { s1 with metric := some gv2, registry := s1.registry ++ [s1.Name] }
        | none => none
    | some gv =>
      match gvSet gv labels value with
      | some gv2 => some { s1 with metric := some gv2 }
      | none => none
  else if s1.MetricType = counterType ∨ s1.MetricType = histogramType ∨
      s1.MetricType = summaryType then
    some { s1 with warnings := s1.warnings ++ [notImplementedMsg] }
  else
    some { s1 with
           metric := none
           warnings := s1.warnings ++ [unknownRegisterMsg ++ s1.MetricType] }

/-- Loop body of `cleanupUnusedDimensions`: walk `resultLast`; a label map
with no `reflect.DeepEqual` counterpart in `resultCurrent` is deleted from
the gauge vector (warning when the delete finds nothing). Reading the vector
through a `nil` handle is a Go type-assertion panic (`none`). -/
def cleanupLoop (mt : Str) (current : List GoMap) (metric : Option GaugeVec)
    (warnings : List Str) : List GoMap → Option (Option GaugeVec × List Str)
  | [] => some (metric, warnings)
  | labelsLast :: rest =>
    if current.any (fun c => mapsEqual labelsLast c) then
      cleanupLoop mt current metric warnings rest
    else if mt = gaugeType then
      match metric with
      | none => none
      | some gv =>
        let r := gvDelete gv labelsLast
        cleanupLoop mt current (some r.1)
          (if r.2 then warnings else warnings ++ [deleteFailedMsg]) rest
    else cleanupLoop mt current metric warnings rest

/-- Go `cleanupUnusedDimensions`: when the current run produced at least one
result, remove the stale label-value combinations of the previous run. -/
def cleanupUnusedDimensions (s : RunState) : Option RunState :=
  if 0 < s.resultCurrent.length then
    match cleanupLoop s.MetricType s.resultCurrent s.metric s.warnings s.resultLast with
    | some mw => some { s with metric := mw.1, warnings := mw.2 }
    | none => none
  else some s

/-- Go `unregisterMetricsForCheck`: when a handle exists, a Gauge is removed
from the registry, other types only warn, and the handle is cleared. -/
def unregisterMetricsForCheck (s : RunState) : RunState :=
  match s.metric with
  | none => s
  | some _ =>
    if s.MetricType = gaugeType then
      { s with registry := eraseStr s.Name s.registry, metric := none }
    else if s.MetricType = counterType ∨ s.MetricType = histogramType ∨
        s.MetricType = summaryType then
      { s with warnings := s.warnings ++ [notImplementedMsg], metric := none }
    else
      { s with
        warnings := s.warnings ++ [unknownUnregisterMsg ++ s.MetricType]
        metric := none }

/-- Outcome of one run of the external probe process, as captured by
`exec.Command` with stdout and stderr buffers: `exitErr` is the message of
the `cmd.Run()` error, `none` when the process exited with status 0. The
process itself is external input to `runBashScript`. -/
structure ProcResult where
  stdout : Str
  stderr : Str
  exitErr : Option Str
deriving DecidableEq

/-- Go `runBashScript`: on success the captured stdout is the raw result;
on failure exactly one error is returned, carrying stdout if non-empty,
else stderr if non-empty, else the underlying execution error. -/
def runBashScript (p : ProcResult) : Except Str Str :=
  let scriptResult := p.stdout
  let scriptError := p.stderr
  match p.exitErr with
  | some err =>
    if scriptResult ≠ [] then Except.error (scriptFailedPre ++ scriptResult)
    else if scriptError ≠ [] then Except.error (scriptFailedPre ++ scriptError)
    else Except.error (scriptFailedPre ++ err)
  | none => Except.ok scriptResult

/-- Per-line loop of `runCheck` on a successful script run: every non-empty
line is converted and registered. -/
def processLines (s : RunState) : List Str → Option RunState
  | [] => some s
  | line :: rest =>
    if line = [] then processLines s rest
    else
      match convertResult line with
      | none => none
      | some vl =>
        match registerMetricsForCheck s vl.1 vl.2 with
        | some s2 => processLines s2 rest
        | none => none

/-- One tick of `runCheck` (the body run when the wall clock passed
`nextrun`): rotate the result lists, run the script, register each output
line on success or warn on failure, clean up stale dimensions, and schedule
the next run. -/
def tick (s : RunState) (p : ProcResult) : Option RunState :=
  let s1 := { s with resultLast := s.resultCurrent, resultCurrent := [] }
  let s2? :=
    match runBashScript p with
    | Except.ok result => processLines s1 (splitOnChar '\n' result)
    | Except.error e => some { s1 with warnings := s1.warnings ++ [checkFailedMsg ++ e] }
  match s2? with
  | none => none
  | some s2 =>
    match cleanupUnusedDimensions s2 with
    | none => none
    | some s3 => some { s3 with nextrun := s3.nextrun + s3.Interval }

/-- Chain of consecutive ticks of one check, each fed one process outcome. -/
def runTicks (s : RunState) : List ProcResult → Option RunState
  | [] => some s
  | p :: ps =>
    match tick s p with
    | none => none
    | some s2 => runTicks s2 ps

/-- Chain of consecutive observations recorded for one check within a
tick. -/
def recordAll (s : RunState) : List (GoFloat × GoMap) → Option RunState
  | [] => some s
  | vl :: rest =>
    match registerMetricsForCheck s vl.1 vl.2 with
    | none => none
    | some s2 => recordAll s2 rest

/-- Concatenation of `key=value` items with comma separators, the inverse
direction of the label grammar, used to quantify over well-formed lines. -/
def joinItems : List (Str × Str) → Str
  | [] => []
  | [kv] => kv.1 ++ '=' :: kv.2
  | kv :: rest => kv.1 ++ '=' :: kv.2 ++ ',' :: joinItems rest

/-- Map built from a list of key-value items by repeated Go map
assignment, mirroring the accumulation of `parseLabelsLoop`. -/
def itemsToMap (m : GoMap) : List (Str × Str) → GoMap
  | [] => m
  | kv :: rest => itemsToMap (mapInsert m kv.1 kv.2) rest

/-- Well-formed script output line: the value string, then, when the item
list is non-empty, a `|` and the comma-joined items. -/
def mkLine (vstr : Str) (items : List (Str × Str)) : Str :=
  match items with
  | [] => vstr
  | _ => vstr ++ '|' :: joinItems items

/-- Numeric part of a line as `convertResult` sees it: the text before the
first `|`, or the whole line when there is none. -/
def numericPart (line : Str) : Str :=
  match splitOnChar '|' line with
  | v :: _ => v
  | [] => line

/-- Side condition under which the label loop of `convertResult` cannot
panic: every comma-separated item right of the first `|` (if any) contains
an `=`. -/
def lineItemsHaveEq (line : Str) : Bool :=
  match splitOnChar '|' line with
  | _ :: labelPart :: _ =>
    (splitOnChar ',' labelPart).all (fun item => containsChar '=' item)
  | _ => true

def exHist : RunState :=
  { Name := "chk".data, Help := "help".data, File := "file".data,
    MetricType := "Histogram".data, Interval := 5, nextrun := 0,
    resultLast := [], resultCurrent := [], metric := none, registry := [],
    warnings := [] }

def exGauge0 : RunState := { exHist with MetricType := "Gauge".data }

def exRegGv : GaugeVec :=
  ⟨"chk".data, "help".data, ["a".data],
    [([("a".data, "b".data)], GoFloat.finite 1 0)]⟩

def exReg : RunState := { exGauge0 with
  metric := some exRegGv
  registry := ["chk".data] }

def exStale : RunState := { exReg with
  resultLast := [[("a".data, "b".data)]]
  resultCurrent := [] }

def exReconGv : GaugeVec :=
  ⟨"chk".data, "help".data, ["disk".data],
    [([("disk".data, "sda".data)], GoFloat.finite 1 0),
      ([("disk".data, "sdb".data)], GoFloat.finite 2 0)]⟩

def exRecon : RunState := { exGauge0 with
  metric := some exReconGv
  registry := ["chk".data]
  resultLast := [[("disk".data, "sda".data)], [("disk".data, "sdb".data)]]
  resultCurrent := [[("disk".data, "sda".data)]] }

/-- Staleness as `cleanupUnusedDimensions` computes it: a label map of the
previous run with no `reflect.DeepEqual` counterpart in the current run. -/
def staleB (current : List GoMap) (ll : GoMap) : Bool :=
  !(current.any (fun c => mapsEqual ll c))

/-- Removal condition of the cleanup pass for a series entry: some stale
label map of the previous run equals the entry's label map. -/
def removePred (current last : List GoMap) (e : GoMap × GoFloat) : Bool :=
  last.any (fun ll => staleB current ll && mapsEqual e.1 ll)

theorem splitOnChar_ne_nil (c : Char) (s : Str) : splitOnChar c s ≠ [] := by
  induction s with
  | nil => simp [splitOnChar]
  | cons x xs ih =>
    simp only [splitOnChar]
    cases h : splitOnChar c xs with
    | nil => simp
    | cons g gs => by_cases hx : x = c <;> simp [hx]

theorem containsChar_append (c : Char) (a b : Str) :
    containsChar c (a ++ b) = (containsChar c a || containsChar c b) := by
  induction a with
  | nil => simp [containsChar]
  | cons x xs ih => simp [containsChar, ih, Bool.or_assoc]

theorem containsChar_append_cons (c : Char) (a b : Str) :
    containsChar c (a ++ c :: b) = true := by
  rw [containsChar_append]
  simp [containsChar]

theorem splitOnChar_of_not_contains {c : Char} {s : Str}
    (h : containsChar c s = false) : splitOnChar c s = [s] := by
  induction s with
  | nil => rfl
  | cons x xs ih =>
    simp only [containsChar, Bool.or_eq_false_iff, decide_eq_false_iff_not] at h
    simp only [splitOnChar, ih h.2]
    simp [h.1]

theorem splitOnChar_append_cons {c : Char} {a : Str} (b : Str)
    (h : containsChar c a = false) :
    splitOnChar c (a ++ c :: b) = a :: splitOnChar c b := by
  induction a with
  | nil =>
    simp only [List.nil_append, splitOnChar]
    cases hs : splitOnChar c b with
    | nil => exact absurd hs (splitOnChar_ne_nil c b)
    | cons g gs => simp
  | cons x xs ih =>
    simp only [containsChar, Bool.or_eq_false_iff, decide_eq_false_iff_not] at h
    simp only [List.cons_append, splitOnChar, List.append_eq]
    rw [ih h.2]
    simp [h.1]

theorem splitOnChar_shape_of_contains {c : Char} {s : Str}
    (h : containsChar c s = true) :
    ∃ a b rest, splitOnChar c s = a :: b :: rest := by
  induction s with
  | nil => simp [containsChar] at h
  | cons x xs ih =>
    by_cases hx : x = c
    · cases hs : splitOnChar c xs with
      | nil => exact absurd hs (splitOnChar_ne_nil c xs)
      | cons g gs => exact ⟨[], g, gs, by simp [splitOnChar, hs, hx]⟩
    · have hxs : containsChar c xs = true := by
        simp only [containsChar, Bool.or_eq_true, decide_eq_true_eq] at h
        rcases h with h1 | h2
        · exact absurd h1 hx
        · exact h2
      obtain ⟨a, b, rest, hab⟩ := ih hxs
      exact ⟨x :: a, b, rest, by simp [splitOnChar, hab, hx]⟩

theorem splitN2_of_not_contains {c : Char} {s : Str}
    (h : containsChar c s = false) : splitN2 c s = [s] := by
  induction s with
  | nil => rfl
  | cons x xs ih =>
    simp only [containsChar, Bool.or_eq_false_iff, decide_eq_false_iff_not] at h
    simp only [splitN2, ih h.2]
    simp [h.1]

theorem splitN2_append_cons {c : Char} {k : Str} (v : Str)
    (h : containsChar c k = false) : splitN2 c (k ++ c :: v) = [k, v] := by
  induction k with
  | nil => simp [splitN2]
  | cons x xs ih =>
    simp only [containsChar, Bool.or_eq_false_iff, decide_eq_false_iff_not] at h
    simp only [List.cons_append, splitN2, List.append_eq]
    rw [ih h.2]
    simp [h.1]

theorem splitN2_shape_of_contains {c : Char} {s : Str}
    (h : containsChar c s = true) : ∃ k v, splitN2 c s = [k, v] := by
  induction s with
  | nil => simp [containsChar] at h
  | cons x xs ih =>
    by_cases hx : x = c
    · exact ⟨[], xs, by simp [splitN2, hx]⟩
    · have hxs : containsChar c xs = true := by
        simp only [containsChar, Bool.or_eq_true, decide_eq_true_eq] at h
        rcases h with h1 | h2
        · exact absurd h1 hx
        · exact h2
      obtain ⟨k, v, hkv⟩ := ih hxs
      exact ⟨x :: k, v, by simp [splitN2, hkv, hx]⟩

theorem parseLabelsLoop_isSome {items : List Str}
    (h : ∀ item ∈ items, containsChar '=' item = true) (m : GoMap) :
    ∃ m2, parseLabelsLoop m items = some m2 := by
  induction items generalizing m with
  | nil => exact ⟨m, rfl⟩
  | cons item rest ih =>
    obtain ⟨k, v, hkv⟩ := splitN2_shape_of_contains (h item (by simp))
    rw [parseLabelsLoop, hkv]
    exact ih (fun i hi => h i (by simp [hi])) _

theorem parseLabelsLoop_wellFormed {items : List (Str × Str)}
    (h : ∀ kv ∈ items, containsChar '=' kv.1 = false) (m : GoMap) :
    parseLabelsLoop m (items.map (fun kv => kv.1 ++ '=' :: kv.2)) =
      some (itemsToMap m items) := by
  induction items generalizing m with
  | nil => rfl
  | cons kv rest ih =>
    rw [List.map_cons, parseLabelsLoop, splitN2_append_cons kv.2 (h kv (by simp))]
    exact ih (fun i hi => h i (by simp [hi])) _

theorem joinItems_not_contains {items : List (Str × Str)}
    (h : ∀ kv ∈ items, containsChar '|' kv.1 = false ∧
      containsChar '|' kv.2 = false) :
    containsChar '|' (joinItems items) = false := by
  induction items with
  | nil => rfl
  | cons kv rest ih =>
    cases rest with
    | nil =>
      obtain hk := h kv (by simp)
      simp [joinItems, containsChar_append, containsChar, hk.1, hk.2]
    | cons kv2 rest2 =>
      obtain hk := h kv (by simp)
      have hrest := ih (fun i hi => h i (by simp [hi]))
      simp [joinItems, containsChar_append, containsChar, hk.1, hk.2, hrest]

theorem splitOnChar_joinItems {items : List (Str × Str)} (hne : items ≠ [])
    (h : ∀ kv ∈ items, containsChar ',' kv.1 = false ∧
      containsChar ',' kv.2 = false) :
    splitOnChar ',' (joinItems items) =
      items.map (fun kv => kv.1 ++ '=' :: kv.2) := by
  induction items with
  | nil => cases hne rfl
  | cons kv rest ih =>
    cases rest with
    | nil =>
      obtain hk := h kv (by simp)
      have hc : containsChar ',' (kv.1 ++ '=' :: kv.2) = false := by
        simp [containsChar_append, containsChar, hk.1, hk.2]
      simp [joinItems, splitOnChar_of_not_contains hc]
    | cons kv2 rest2 =>
      obtain hk := h kv (by simp)
      have hc : containsChar ',' (kv.1 ++ '=' :: kv.2) = false := by
        simp [containsChar_append, containsChar, hk.1, hk.2]
      have hjoin : joinItems (kv :: kv2 :: rest2) =
          (kv.1 ++ '=' :: kv.2) ++ ',' :: joinItems (kv2 :: rest2) := by
        simp [joinItems]
      rw [hjoin, splitOnChar_append_cons _ hc,
        ih (by simp) (fun i hi => h i (by simp [hi]))]
      rfl



/-- Claim C2: for every well-formed script output line of the form
`v|k1=v1,k2=v2` (v a valid float, each label item containing an `=`),
parsing returns the numeric value of `v` and the label mapping built from
the items; for a line consisting only of a valid float, parsing returns
the value with an empty label mapping. -/
theorem claim2 (vstr : Str) (items : List (Str × Str)) (f : GoFloat)
    (hv : parseFloat vstr = some f)
    (hvp : containsChar '|' vstr = false)
    (hitems : ∀ kv ∈ items, containsChar '=' kv.1 = false ∧
      containsChar ',' kv.1 = false ∧ containsChar ',' kv.2 = false ∧
      containsChar '|' kv.1 = false ∧ containsChar '|' kv.2 = false) :
    convertResult (mkLine vstr items) = some (f, itemsToMap [] items) := by
  cases items with
  | nil => simp [mkLine, convertResult, hvp, parseFloatOr0, hv, itemsToMap]
  | cons kv rest =>
    have hline : mkLine vstr (kv :: rest) = vstr ++ '|' :: joinItems (kv :: rest) := rfl
    have hjoinPipe : containsChar '|' (joinItems (kv :: rest)) = false :=
      joinItems_not_contains
        (fun i hi => ⟨(hitems i hi).2.2.2.1, (hitems i hi).2.2.2.2⟩)
    have hcontains : containsChar '|' (vstr ++ '|' :: joinItems (kv :: rest)) = true :=
      containsChar_append_cons _ _ _
    have hsplit : splitOnChar '|' (vstr ++ '|' :: joinItems (kv :: rest)) =
        [vstr, joinItems (kv :: rest)] := by
      rw [splitOnChar_append_cons _ hvp, splitOnChar_of_not_contains hjoinPipe]
    have hitemsSplit : splitOnChar ',' (joinItems (kv :: rest)) =
        (kv :: rest).map (fun kv => kv.1 ++ '=' :: kv.2) :=
      splitOnChar_joinItems (by simp)
        (fun i hi => ⟨(hitems i hi).2.1, (hitems i hi).2.2.1⟩)
    have hloop := @parseLabelsLoop_wellFormed (kv :: rest)
      (fun i hi => (hitems i hi).1) ([] : GoMap)
    rw [hline]
    rw [List.map_cons] at hloop
    simp [convertResult, hcontains, hsplit, hitemsSplit, hloop, parseFloatOr0, hv]

theorem claim2_witness :
    parseFloat "3.5".data = some (GoFloat.finite 35 (-1)) ∧
    convertResult "3.5|disk=sda,mount=/".data =
      some (GoFloat.finite 35 (-1),
        [("disk".data, "sda".data), ("mount".data, "/".data)]) := by
  constructor
  · decide
  · have h := claim2 "3.5".data [("disk".data, "sda".data), ("mount".data, "/".data)]
      (GoFloat.finite 35 (-1)) (by decide) (by decide) (by decide)
    have e1 : mkLine "3.5".data [("disk".data, "sda".data), ("mount".data, "/".data)] =
        "3.5|disk=sda,mount=/".data := by decide
    have e2 : itemsToMap [] [("disk".data, "sda".data), ("mount".data, "/".data)] =
        [("disk".data, "sda".data), ("mount".data, "/".data)] := by decide
    rw [e1, e2] at h
    exact h

/-- Claim C3 counterexample: the non-empty line `1|x` (a label item with no
`=`) makes `convertResult` fail with an out-of-range index instead of
returning a pair, so the parser is not total on non-empty lines. -/
theorem claim3_cex :
    "1|x".data ≠ ([] : Str) ∧ convertResult "1|x".data = none := by decide

/-- Claim C3 (amended): for every non-empty line in which every
comma-separated item to the right of the first `|` (if any) contains an
`=`, `convertResult` returns a (value, label-set) pair; each item is split
on its first `=` only, so parsing completes even when a value itself
contains `=`. -/
theorem claim3 (line : Str) (_hne : line ≠ []) (h : lineItemsHaveEq line = true) :
    ∃ p, convertResult line = some p := by
  by_cases hc : containsChar '|' line = true
  · obtain ⟨a, b, rest, hab⟩ := splitOnChar_shape_of_contains hc
    simp only [lineItemsHaveEq, hab] at h
    rw [List.all_eq_true] at h
    obtain ⟨m2, hm⟩ := parseLabelsLoop_isSome h []
    exact ⟨(parseFloatOr0 a, m2), by simp [convertResult, hc, hab, hm]⟩
  · have hc' : containsChar '|' line = false := by simpa using hc
    exact ⟨(parseFloatOr0 line, []), by simp [convertResult, hc']⟩

theorem claim3_witness :
    "1|k=a=b".data ≠ ([] : Str) ∧ lineItemsHaveEq "1|k=a=b".data = true ∧
    ∃ p, convertResult "1|k=a=b".data = some p :=
  ⟨by decide, by decide, claim3 _ (by decide) (by decide)⟩

/-- Claim C5 counterexample: the line `abc|x` has a numeric part that does
not parse as a float, yet `convertResult` fails (label-item panic) instead
of returning value 0 with labels, so "never returns an error" is false as
stated. -/
theorem claim5_cex :
    parseFloat (numericPart "abc|x".data) = none ∧
    convertResult "abc|x".data = none := by decide

/-- Claim C5 (amended): for every input line whose numeric part does not
parse as a floating-point number and whose label items (if any) each
contain an `=`, the parser returns value 0 together with the labels parsed
from the line (empty if there is no `|`) and does not fail. -/
theorem claim5 (line : Str) (hv : parseFloat (numericPart line) = none)
    (h : lineItemsHaveEq line = true) :
    ∃ m, convertResult line = some (GoFloat.finite 0 0, m) ∧
      (containsChar '|' line = false → m = []) := by
  by_cases hc : containsChar '|' line = true
  · obtain ⟨a, b, rest, hab⟩ := splitOnChar_shape_of_contains hc
    simp only [lineItemsHaveEq, hab] at h
    rw [List.all_eq_true] at h
    obtain ⟨m2, hm⟩ := parseLabelsLoop_isSome h []
    have hnum : numericPart line = a := by simp [numericPart, hab]
    rw [hnum] at hv
    refine ⟨m2, ?_, fun hfalse => absurd hc (by simp [hfalse])⟩
    simp [convertResult, hc, hab, hm, parseFloatOr0, hv]
  · have hc' : containsChar '|' line = false := by simpa using hc
    have hnum : numericPart line = line := by
      simp [numericPart, splitOnChar_of_not_contains hc']
    rw [hnum] at hv
    exact ⟨[], by simp [convertResult, hc', parseFloatOr0, hv], fun _ => rfl⟩

theorem claim5_witness :
    parseFloat (numericPart "abc|k=v".data) = none ∧
    ∃ m, convertResult "abc|k=v".data = some (GoFloat.finite 0 0, m) ∧
      (containsChar '|' "abc|k=v".data = false → m = []) :=
  ⟨by decide, claim5 _ (by decide) (by decide)⟩

/-- Claim C10: for every line with two or more `|` characters,
`convertResult` uses only the text before the first `|` as the numeric
value and only the text between the first and second `|` as the label
list; everything after the second `|` is silently discarded. -/
theorem claim10 (a b c : Str) (ha : containsChar '|' a = false)
    (hb : containsChar '|' b = false) :
    convertResult (a ++ '|' :: b ++ '|' :: c) = convertResult (a ++ '|' :: b) := by
  have h1 : splitOnChar '|' (a ++ '|' :: (b ++ '|' :: c)) =
      a :: b :: splitOnChar '|' c := by
    rw [splitOnChar_append_cons _ ha, splitOnChar_append_cons _ hb]
  have h2 : splitOnChar '|' (a ++ '|' :: b) = [a, b] := by
    rw [splitOnChar_append_cons _ ha, splitOnChar_of_not_contains hb]
  have hc1 : containsChar '|' (a ++ '|' :: (b ++ '|' :: c)) = true :=
    containsChar_append_cons _ _ _
  have hc2 : containsChar '|' (a ++ '|' :: b) = true :=
    containsChar_append_cons _ _ _
  simp [convertResult, hc1, hc2, h1, h2]

theorem claim10_witness :
    containsChar '|' "1".data = false ∧ containsChar '|' "k=v".data = false ∧
    convertResult ("1".data ++ '|' :: "k=v".data ++ '|' :: "zz|q".data) =
      convertResult ("1".data ++ '|' :: "k=v".data) :=
  ⟨by decide, by decide, claim10 _ _ _ (by decide) (by decide)⟩

/-- Claim C4: running a script that exits 0 returns the captured stdout
with no error; on a failing run exactly one error is returned, carrying
stdout if non-empty, else stderr if non-empty, else the underlying
execution error, and no raw result string is returned. -/
theorem claim4 (out err e : Str) :
    runBashScript ⟨out, err, none⟩ = Except.ok out ∧
    runBashScript ⟨out, err, some e⟩ = Except.error (scriptFailedPre ++
      (if out ≠ [] then out else if err ≠ [] then err else e)) := by
  refine ⟨rfl, ?_⟩
  by_cases h1 : out = [] <;> by_cases h2 : err = [] <;> simp [runBashScript, h1, h2]

theorem register_nonGauge {s : RunState} (v : GoFloat) (l : GoMap)
    (hT : s.MetricType ≠ gaugeType) (hm : s.metric = none) :
    ∃ s1, registerMetricsForCheck s v l = some s1 ∧ s1.registry = s.registry ∧
      s1.metric = none ∧ s1.MetricType = s.MetricType ∧ s1.Name = s.Name ∧
      s1.Interval = s.Interval ∧ s1.nextrun = s.nextrun ∧
      ∃ w, s1.warnings = s.warnings ++ [w] := by
  by_cases h2 : s.MetricType = counterType ∨ s.MetricType = histogramType ∨
      s.MetricType = summaryType
  · refine ⟨{ s with
        resultCurrent := s.resultCurrent ++ [l]
        warnings := s.warnings ++ [notImplementedMsg] },
      by simp [registerMetricsForCheck, hT, h2], rfl, hm, rfl, rfl, rfl, rfl,
      ⟨notImplementedMsg, rfl⟩⟩
  · refine ⟨{ s with
        resultCurrent := s.resultCurrent ++ [l]
        metric := none
        warnings := s.warnings ++ [unknownRegisterMsg ++ s.MetricType] },
      by simp [registerMetricsForCheck, hT, h2], rfl, rfl, rfl, rfl, rfl, rfl,
      ⟨unknownRegisterMsg ++ s.MetricType, rfl⟩⟩

/-- Claim C7: for every check whose metric type is not Gauge, recording any
sequence of observations never creates a series (registry unchanged, handle
stays clear), logs one warning per recorded observation, and never fails. -/
theorem claim7 (obs : List (GoFloat × GoMap)) : ∀ s : RunState,
    s.MetricType ≠ gaugeType → s.metric = none →
    ∃ s2, recordAll s obs = some s2 ∧ s2.registry = s.registry ∧
      s2.metric = none ∧
      s2.warnings.length = s.warnings.length + obs.length := by
  induction obs with
  | nil => exact fun s _ hm => ⟨s, rfl, rfl, hm, by simp⟩
  | cons vl rest ih =>
    intro s hT hm
    obtain ⟨s1, hreg, hrg, hm1, hTe, _, _, _, w, hw⟩ := register_nonGauge vl.1 vl.2 hT hm
    obtain ⟨s2, h1, h2, h3, h4⟩ := ih s1 (by rw [hTe]; exact hT) hm1
    refine ⟨s2, ?_, by rw [h2, hrg], h3, ?_⟩
    · simp only [recordAll, hreg]
      exact h1
    · rw [h4, hw]
      simp [List.length_append]
      omega

theorem claim7_witness :
    exHist.MetricType ≠ gaugeType ∧ exHist.metric = none ∧
    ∃ s2, recordAll exHist [(GoFloat.finite 1 0, []), (GoFloat.finite 2 0, [])] =
        some s2 ∧ s2.registry = exHist.registry ∧ s2.metric = none ∧
      s2.warnings.length = exHist.warnings.length + 2 :=
  ⟨by decide, rfl, claim7 [(GoFloat.finite 1 0, []), (GoFloat.finite 2 0, [])]
    exHist (by decide) rfl⟩

theorem mapLookup_isSome_of_mem {m : GoMap} {k : Str} (h : k ∈ m.map Prod.fst) :
    (mapLookup m k).isSome = true := by
  induction m with
  | nil => simp at h
  | cons kv rest ih =>
    simp only [List.map_cons, List.mem_cons] at h
    by_cases he : kv.1 = k
    · simp [mapLookup, he]
    · rcases h with h1 | h2
      · exact absurd h1.symm he
      · simp [mapLookup, he, ih h2]

theorem keysMatch_self (m : GoMap) : keysMatch m (convertMapKeysToSlice m) = true := by
  simp only [keysMatch, convertMapKeysToSlice, List.length_map, beq_self_eq_true,
    Bool.true_and, List.all_eq_true]
  intro k hk
  exact mapLookup_isSome_of_mem hk

theorem register_gauge_create {s : RunState} (v : GoFloat) (l : GoMap)
    (hT : s.MetricType = gaugeType) (hm : s.metric = none)
    (hr : elemStr s.Name s.registry = false) :
    registerMetricsForCheck s v l = some { s with
      resultCurrent := s.resultCurrent ++ [l]
      metric := some ⟨s.Name, s.Help, convertMapKeysToSlice l, [(l, v)]⟩
      registry := s.registry ++ [s.Name] } := by
  have hset := keysMatch_self l
  simp [registerMetricsForCheck, hT, hm, hr, gvSet, hset]

theorem gvSet_some {gv : GaugeVec} {l : GoMap} (v : GoFloat)
    (hk : keysMatch l gv.labelNames = true) :
    ∃ gv2, gvSet gv l v = some gv2 ∧ gv2.labelNames = gv.labelNames ∧
      gv2.name = gv.name := by
  simp only [gvSet, hk, if_true]
  exact ⟨_, rfl, rfl, rfl⟩

theorem register_gauge_existing {s : RunState} {gv : GaugeVec} (v : GoFloat) (l : GoMap)
    (hT : s.MetricType = gaugeType) (hm : s.metric = some gv)
    (hk : keysMatch l gv.labelNames = true) :
    ∃ gv2, registerMetricsForCheck s v l = some { s with
        resultCurrent := s.resultCurrent ++ [l]
        metric := some gv2 } ∧
      gv2.labelNames = gv.labelNames ∧ gv2.name = gv.name := by
  obtain ⟨gv2, hset, hln, hname⟩ := gvSet_some v hk
  refine ⟨gv2, ?_, hln, hname⟩
  simp [registerMetricsForCheck, hT, hm, hset]

theorem recordAll_gauge_existing (obs : List (GoFloat × GoMap)) :
    ∀ (s : RunState) (gv : GaugeVec), s.MetricType = gaugeType → s.metric = some gv →
    (∀ vl ∈ obs, keysMatch vl.2 gv.labelNames = true) →
    ∃ s2 gv2, recordAll s obs = some s2 ∧ s2.metric = some gv2 ∧
      gv2.labelNames = gv.labelNames ∧ gv2.name = gv.name ∧
      s2.registry = s.registry ∧ s2.Name = s.Name := by
  induction obs with
  | nil => exact fun s gv _ hm _ => ⟨s, gv, rfl, hm, rfl, rfl, rfl, rfl⟩
  | cons vl rest ih =>
    intro s gv hT hm hobs
    obtain ⟨gv2, hreg, hln, hname⟩ :=
      register_gauge_existing vl.1 vl.2 hT hm (hobs vl (by simp))
    obtain ⟨s2, gv3, h1, h2, h3, h4, h5, h6⟩ :=
      ih { s with resultCurrent := s.resultCurrent ++ [vl.2], metric := some gv2 }
        gv2 hT rfl (fun i hi => by rw [hln]; exact hobs i (by simp [hi]))
    refine ⟨s2, gv3, ?_, h2, by rw [h3, hln], by rw [h4, hname], h5, h6⟩
    simp only [recordAll, hreg]
    exact h1

theorem countStr_append_one (x : Str) (l : List Str) :
    countStr x (l ++ [x]) = countStr x l + 1 := by
  induction l with
  | nil => simp [countStr]
  | cons y ys ih =>
    by_cases h : y = x
    · simp [countStr, h, ih]
      omega
    · simp [countStr, h, ih]

/-- Claim C6: at most one registered series-group exists per check:
with no series yet and the check name unregistered, the first observation
creates exactly one series-group dimensioned by the label names of that
first observation, and every subsequent observation updates it (same name,
same label names, no further registration). -/
theorem claim6 (obs : List (GoFloat × GoMap)) (s : RunState) (v0 : GoFloat)
    (l0 : GoMap) (hT : s.MetricType = gaugeType) (hm : s.metric = none)
    (hr : elemStr s.Name s.registry = false)
    (hobs : ∀ vl ∈ obs, keysMatch vl.2 (convertMapKeysToSlice l0) = true) :
    ∃ s2 gv2, recordAll s ((v0, l0) :: obs) = some s2 ∧
      s2.metric = some gv2 ∧ gv2.labelNames = convertMapKeysToSlice l0 ∧
      gv2.name = s.Name ∧ s2.registry = s.registry ++ [s.Name] ∧
      countStr s.Name s2.registry = countStr s.Name s.registry + 1 := by
  have hcreate := register_gauge_create v0 l0 hT hm hr
  obtain ⟨s2, gv2, h1, h2, h3, h4, h5, h6⟩ :=
    recordAll_gauge_existing obs
      { s with
        resultCurrent := s.resultCurrent ++ [l0]
        metric := some ⟨s.Name, s.Help, convertMapKeysToSlice l0, [(l0, v0)]⟩
        registry := s.registry ++ [s.Name] }
      ⟨s.Name, s.Help, convertMapKeysToSlice l0, [(l0, v0)]⟩
      hT rfl (fun i hi => hobs i hi)
  refine ⟨s2, gv2, ?_, h2, by rw [h3], by rw [h4], by rw [h5], ?_⟩
  · simp only [recordAll, hcreate]
    exact h1
  · rw [h5]
    exact countStr_append_one s.Name s.registry

theorem claim6_witness :
    exGauge0.MetricType = gaugeType ∧ exGauge0.metric = none ∧
    elemStr exGauge0.Name exGauge0.registry = false ∧
    ∃ s2 gv2, recordAll exGauge0
        [(GoFloat.finite 1 0, [("a".data, "b".data)]),
          (GoFloat.finite 2 0, [("a".data, "c".data)])] = some s2 ∧
      s2.metric = some gv2 ∧
      gv2.labelNames = convertMapKeysToSlice [("a".data, "b".data)] ∧
      gv2.name = exGauge0.Name ∧
      s2.registry = exGauge0.registry ++ [exGauge0.Name] ∧
      countStr exGauge0.Name s2.registry = countStr exGauge0.Name exGauge0.registry + 1 :=
  ⟨rfl, rfl, by decide, claim6 [(GoFloat.finite 2 0, [("a".data, "c".data)])]
    exGauge0 (GoFloat.finite 1 0) [("a".data, "b".data)] rfl rfl (by decide) (by decide)⟩

theorem countStr_erase {x : Str} {l : List Str} (h : countStr x l ≤ 1) :
    countStr x (eraseStr x l) = 0 := by
  induction l with
  | nil => rfl
  | cons y ys ih =>
    by_cases he : y = x
    · have h2 : countStr x ys = 0 := by simp [countStr, he] at h; omega
      simpa [eraseStr, he] using h2
    · have h2 : countStr x ys ≤ 1 := by simp [countStr, he] at h; omega
      simp [eraseStr, he, countStr, ih h2]

/-- Claim C8: teardown is idempotent and complete: on a check with a
registered gauge series (its name registered at most once), teardown leaves
no series registered for that check and clears the handle; a second
teardown, or teardown on a check that never created a series, is a
no-op. -/
theorem claim8 (s : RunState) :
    (∀ gv, s.metric = some gv → s.MetricType = gaugeType →
      countStr s.Name s.registry ≤ 1 →
      countStr s.Name (unregisterMetricsForCheck s).registry = 0 ∧
      (unregisterMetricsForCheck s).metric = none) ∧
    unregisterMetricsForCheck (unregisterMetricsForCheck s) =
      unregisterMetricsForCheck s ∧
    (s.metric = none → unregisterMetricsForCheck s = s) := by
  refine ⟨?_, ?_, ?_⟩
  · intro gv hm hT hc
    constructor
    · simpa [unregisterMetricsForCheck, hm, hT] using countStr_erase hc
    · simp [unregisterMetricsForCheck, hm, hT]
  · cases hm : s.metric with
    | none => simp [unregisterMetricsForCheck, hm]
    | some gv =>
      by_cases hT : s.MetricType = gaugeType
      · simp [unregisterMetricsForCheck, hm, hT]
      · by_cases h2 : s.MetricType = counterType ∨ s.MetricType = histogramType ∨
            s.MetricType = summaryType
        · simp [unregisterMetricsForCheck, hm, hT, h2]
        · simp [unregisterMetricsForCheck, hm, hT, h2]
  · intro hm
    simp [unregisterMetricsForCheck, hm]

theorem claim8_witness :
    (exReg.metric = some exRegGv ∧ exReg.MetricType = gaugeType ∧
      countStr exReg.Name exReg.registry ≤ 1 ∧
      countStr exReg.Name (unregisterMetricsForCheck exReg).registry = 0 ∧
      (unregisterMetricsForCheck exReg).metric = none) ∧
    unregisterMetricsForCheck (unregisterMetricsForCheck exReg) =
      unregisterMetricsForCheck exReg ∧
    (exHist.metric = none → unregisterMetricsForCheck exHist = exHist) := by
  have h := (claim8 exReg).1 exRegGv rfl rfl (by decide)
  exact ⟨⟨rfl, rfl, by decide, h.1, h.2⟩, (claim8 exReg).2.1, (claim8 exHist).2.2⟩

theorem register_frame {s s2 : RunState} {v : GoFloat} {l : GoMap}
    (h : registerMetricsForCheck s v l = some s2) :
    s2.nextrun = s.nextrun ∧ s2.Interval = s.Interval ∧
    s2.MetricType = s.MetricType ∧ s2.Name = s.Name := by
  simp only [registerMetricsForCheck] at h
  repeat' split at h
  all_goals
    first
      | exact Option.noConfusion h
      | (injection h with h2; rw [← h2]; exact ⟨rfl, rfl, rfl, rfl⟩)

theorem processLines_frame (lines : List Str) : ∀ {s s2 : RunState},
    processLines s lines = some s2 →
    s2.nextrun = s.nextrun ∧ s2.Interval = s.Interval ∧
    s2.MetricType = s.MetricType ∧ s2.Name = s.Name := by
  induction lines with
  | nil =>
    intro s s2 h
    injection h with h2
    rw [← h2]
    exact ⟨rfl, rfl, rfl, rfl⟩
  | cons line rest ih =>
    intro s s2 h
    simp only [processLines] at h
    by_cases hl : line = []
    · rw [if_pos hl] at h
      exact ih h
    · rw [if_neg hl] at h
      cases hcv : convertResult line with
      | none => simp [hcv] at h
      | some vl =>
        simp only [hcv] at h
        cases hr : registerMetricsForCheck s vl.1 vl.2 with
        | none => simp [hr] at h
        | some s1 =>
          simp only [hr] at h
          obtain ⟨f1, f2, f3, f4⟩ := register_frame hr
          obtain ⟨g1, g2, g3, g4⟩ := ih h
          exact ⟨g1.trans f1, g2.trans f2, g3.trans f3, g4.trans f4⟩

theorem cleanup_frame {s s2 : RunState} (h : cleanupUnusedDimensions s = some s2) :
    s2.nextrun = s.nextrun ∧ s2.Interval = s.Interval ∧
    s2.MetricType = s.MetricType ∧ s2.Name = s.Name := by
  simp only [cleanupUnusedDimensions] at h
  repeat' split at h
  all_goals
    first
      | exact Option.noConfusion h
      | (injection h with h2; rw [← h2]; exact ⟨rfl, rfl, rfl, rfl⟩)

theorem tick_nextrun {s s2 : RunState} {p : ProcResult} (h : tick s p = some s2) :
    s2.nextrun = s.nextrun + s.Interval ∧ s2.Interval = s.Interval := by
  simp only [tick] at h
  cases hrb : runBashScript p with
  | ok result =>
    simp only [hrb] at h
    cases hpl : processLines { s with resultLast := s.resultCurrent, resultCurrent := [] }
        (splitOnChar '\n' result) with
    | none => simp [hpl] at h
    | some sA =>
      simp only [hpl] at h
      cases hcl : cleanupUnusedDimensions sA with
      | none => simp [hcl] at h
      | some sB =>
        simp only [hcl] at h
        injection h with h2
        obtain ⟨f1, f2, _, _⟩ := processLines_frame _ hpl
        obtain ⟨g1, g2, _, _⟩ := cleanup_frame hcl
        constructor
        · rw [← h2]
          show sB.nextrun + sB.Interval = s.nextrun + s.Interval
          rw [g1, f1, g2, f2]
        · rw [← h2]
          show sB.Interval = s.Interval
          rw [g2, f2]
  | error e =>
    simp only [hrb] at h
    cases hcl : cleanupUnusedDimensions { s with
        resultLast := s.resultCurrent
        resultCurrent := []
        warnings := s.warnings ++ [checkFailedMsg ++ e] } with
    | none => simp [hcl] at h
    | some sB =>
      simp only [hcl] at h
      injection h with h2
      obtain ⟨g1, g2, _, _⟩ := cleanup_frame hcl
      constructor
      · rw [← h2]
        show sB.nextrun + sB.Interval = s.nextrun + s.Interval
        rw [g1, g2]
      · rw [← h2]
        show sB.Interval = s.Interval
        rw [g2]

/-- Claim C9: `nextrun` advances by exactly `Interval` after each completed
tick, the other operations never modify it, and over a chain of ticks it
advances additively, hence strictly monotonically when `Interval` is
positive. -/
theorem claim9 :
    (∀ (s : RunState) (p : ProcResult) (s2 : RunState), tick s p = some s2 →
      s2.nextrun = s.nextrun + s.Interval) ∧
    (∀ (s : RunState) (p : ProcResult) (s2 : RunState), 0 < s.Interval →
      tick s p = some s2 → s.nextrun < s2.nextrun) ∧
    (∀ (ps : List ProcResult) (s s2 : RunState), runTicks s ps = some s2 →
      s2.nextrun = s.nextrun + ps.length * s.Interval) ∧
    (∀ (s : RunState) (v : GoFloat) (l : GoMap) (s2 : RunState),
      registerMetricsForCheck s v l = some s2 → s2.nextrun = s.nextrun) ∧
    (∀ (s s2 : RunState), cleanupUnusedDimensions s = some s2 →
      s2.nextrun = s.nextrun) ∧
    (∀ s : RunState, (unregisterMetricsForCheck s).nextrun = s.nextrun) := by
  have hticks : ∀ (ps : List ProcResult) (s s2 : RunState), runTicks s ps = some s2 →
      s2.nextrun = s.nextrun + ps.length * s.Interval := by
    intro ps
    induction ps with
    | nil =>
      intro s s2 h
      injection h with h2
      rw [← h2]
      simp
    | cons p rest ih =>
      intro s s2 h
      simp only [runTicks] at h
      cases ht : tick s p with
      | none => rw [ht] at h; exact Option.noConfusion h
      | some s1 =>
        rw [ht] at h
        obtain ⟨t1, t2⟩ := tick_nextrun ht
        have := ih s1 s2 h
        rw [this, t1, t2]
        simp only [List.length_cons]
        push_cast
        ring
  refine ⟨fun s p s2 h => (tick_nextrun h).1, ?_, hticks, ?_, ?_, ?_⟩
  · intro s p s2 hI h
    rw [(tick_nextrun h).1]
    omega
  · intro s v l s2 h
    exact (register_frame h).1
  · intro s s2 h
    exact (cleanup_frame h).1
  · intro s
    cases hm : s.metric with
    | none => simp [unregisterMetricsForCheck, hm]
    | some gv =>
      by_cases hT : s.MetricType = gaugeType
      · simp [unregisterMetricsForCheck, hm, hT]
      · by_cases h2 : s.MetricType = counterType ∨ s.MetricType = histogramType ∨
            s.MetricType = summaryType
        · simp [unregisterMetricsForCheck, hm, hT, h2]
        · simp [unregisterMetricsForCheck, hm, hT, h2]

theorem claim9_witness :
    (∃ s2, tick exGauge0 ⟨[], [], none⟩ = some s2 ∧
      s2.nextrun = exGauge0.nextrun + exGauge0.Interval ∧
      exGauge0.nextrun < s2.nextrun) ∧
    (unregisterMetricsForCheck exGauge0).nextrun = exGauge0.nextrun := by
  have h : (tick exGauge0 ⟨[], [], none⟩).isSome = true := by decide
  obtain ⟨s2, hs2⟩ := Option.isSome_iff_exists.mp h
  exact ⟨⟨s2, hs2, claim9.1 _ _ _ hs2,
    claim9.2.1 _ _ _ (by decide) hs2⟩, claim9.2.2.2.2.2 exGauge0⟩

theorem gvDelete_fst (gv : GaugeVec) (l : GoMap) :
    (gvDelete gv l).1 = { gv with
      series := (gv.series.filter (fun e => !(mapsEqual e.1 l))) } := by
  unfold gvDelete
  by_cases hany : gv.series.any (fun e => mapsEqual e.1 l) = true
  · rw [if_pos hany]
  · rw [if_neg hany]
    have hall : ∀ e ∈ gv.series, mapsEqual e.1 l = false := by
      intro e he
      cases hb : mapsEqual e.1 l
      · rfl
      · exact absurd (List.any_eq_true.mpr ⟨e, he, hb⟩) hany
    have hf : gv.series.filter (fun e => !(mapsEqual e.1 l)) = gv.series := by
      apply List.filter_eq_self.mpr
      intro a ha
      simp [hall a ha]
    rw [hf]

theorem cleanupLoop_gauge (current : List GoMap) :
    ∀ (gv : GaugeVec) (w : List Str) (last : List GoMap),
    ∃ w2, cleanupLoop gaugeType current (some gv) w last =
      some (some { gv with
        series := (gv.series.filter (fun e => !(removePred current last e))) }, w2) := by
  intro gv w last
  induction last generalizing gv w with
  | nil =>
    refine ⟨w, ?_⟩
    have hf : gv.series.filter (fun e => !(removePred current [] e)) = gv.series :=
      List.filter_eq_self.mpr (fun a _ => by simp [removePred])
    simp only [cleanupLoop]
    rw [hf]
  | cons ll rest ih =>
    by_cases hst : current.any (fun c => mapsEqual ll c) = true
    · have hpred : ∀ e : GoMap × GoFloat,
          removePred current (ll :: rest) e = removePred current rest e := by
        intro e
        simp [removePred, staleB, hst]
      obtain ⟨w2, hw2⟩ := ih gv w
      refine ⟨w2, ?_⟩
      have hser : gv.series.filter (fun e => !(removePred current (ll :: rest) e)) =
          gv.series.filter (fun e => !(removePred current rest e)) :=
        List.filter_congr (fun e _ => by rw [hpred e])
      rw [hser]
      simp only [cleanupLoop]
      rw [if_pos hst]
      exact hw2
    · have hst' : current.any (fun c => mapsEqual ll c) = false := by
        simpa using hst
      have hstale : staleB current ll = true := by simp [staleB, hst']
      obtain ⟨w2, hw2⟩ := ih (gvDelete gv ll).1
        (if (gvDelete gv ll).2 then w else w ++ [deleteFailedMsg])
      refine ⟨w2, ?_⟩
      simp only [cleanupLoop]
      rw [if_neg hst]
      simp only [if_true]
      rw [hw2]
      have hcomb : ((gvDelete gv ll).1.series.filter
          (fun e => !(removePred current rest e))) =
          gv.series.filter (fun e => !(removePred current (ll :: rest) e)) := by
        rw [gvDelete_fst]
        show ((gv.series.filter (fun e => !(mapsEqual e.1 ll))).filter
          (fun e => !(removePred current rest e))) = _
        rw [List.filter_filter]
        apply List.filter_congr
        intro e _
        simp [removePred, staleB, hst', Bool.and_comm]
      rw [gvDelete_fst] at hcomb ⊢
      rw [hcomb]
  
/-- Claim C1 counterexample: with `resultCurrent` empty and a stale
label-set in `resultLast`, reconciliation removes nothing — the stale
series survives in the sink, contradicting the claim for the empty
`resultCurrent` case. -/
theorem claim1_cex :
    exStale.resultCurrent = [] ∧
    exStale.resultLast = [[("a".data, "b".data)]] ∧
    cleanupUnusedDimensions exStale = some exStale ∧
    (∃ gv, exStale.metric = some gv ∧
      gv.series.any (fun e => mapsEqual e.1 [("a".data, "b".data)]) = true) :=
  ⟨rfl, rfl, by decide, ⟨exRegGv, rfl, by decide⟩⟩

/-- Claim C1 (amended): for a Gauge check with a registered series, when
`resultCurrent` is non-empty, reconciliation removes from the sink exactly
the entries whose label map equals some label-set of `resultPrevious`
having no equal counterpart in `resultCurrent` (unordered structural
equality), leaving every other entry and all other state untouched; when
`resultCurrent` is empty the pass is skipped and the sink is unchanged. -/
theorem claim1 (s : RunState) (gv : GaugeVec) (hT : s.MetricType = gaugeType)
    (hm : s.metric = some gv) :
    ∃ s2 gv2, cleanupUnusedDimensions s = some s2 ∧ s2.metric = some gv2 ∧
      gv2.name = gv.name ∧ gv2.labelNames = gv.labelNames ∧
      gv2.series = (if 0 < s.resultCurrent.length then
        gv.series.filter (fun e => !(removePred s.resultCurrent s.resultLast e))
      else gv.series) ∧
      s2.registry = s.registry ∧ s2.resultLast = s.resultLast ∧
      s2.resultCurrent = s.resultCurrent ∧ s2.nextrun = s.nextrun := by
  by_cases hc : 0 < s.resultCurrent.length
  · obtain ⟨w2, hw2⟩ := cleanupLoop_gauge s.resultCurrent gv s.warnings s.resultLast
    refine ⟨{ s with
        metric := (some { gv with
          series := (gv.series.filter (fun e => !(removePred s.resultCurrent s.resultLast e))) })
        warnings := w2 },
      { gv with
        series := (gv.series.filter (fun e => !(removePred s.resultCurrent s.resultLast e))) },
      ?_, rfl, rfl, rfl, ?_, rfl, rfl, rfl, rfl⟩
    · simp only [cleanupUnusedDimensions, hT, hm]
      rw [if_pos hc, hw2]
    · rw [if_pos hc]
  · refine ⟨s, gv, ?_, hm, rfl, rfl, ?_, rfl, rfl, rfl, rfl⟩
    · simp only [cleanupUnusedDimensions]
      rw [if_neg hc]
    · rw [if_neg hc]

theorem claim1_witness :
    exRecon.MetricType = gaugeType ∧ exRecon.metric = some exReconGv ∧
    ∃ s2 gv2, cleanupUnusedDimensions exRecon = some s2 ∧ s2.metric = some gv2 ∧
      gv2.series = [([("disk".data, "sda".data)], GoFloat.finite 1 0)] := by
  obtain ⟨s2, gv2, h1, h2, _, _, h5, _, _, _, _⟩ := claim1 exRecon exReconGv rfl rfl
  refine ⟨rfl, rfl, s2, gv2, h1, h2, ?_⟩
  rw [h5]
  decide
